import Mathlib

/-!
# socketcand: framing, tokenizer and session state

A shallow embedding of the pure parts of `src/socketcand.c`:
`state_changed`, `element_start`, `element_length`, `asc2nibble`,
`receive_command`, the state loop of `main` and the broadcast computation of
`determine_adress`.  The mode handlers that `main` calls are not among the
sources; their receive step is modelled from the spec.

Conventions.
* A `char` is a `Char`; a `char *` argument is the list of the bytes stored
  at the pointer.  Cells past the end of the list read as NUL, so every list
  denotes a NUL-terminated string whose text ends at the first NUL (or at the
  end of the list).
* C `int`s are `Int`; none of the modelled computations can overflow.
* Global variables touched by a function are passed in and returned
  explicitly.
-/

namespace Socketcand

/-! ## C strings -/

/-- The byte `buf[i]`; past the stored bytes the terminating NUL is read. -/
def at_index (buf : List Char) (i : Nat) : Char := buf.getD i '\x00'

/-- The libc `strlen`: number of bytes before the first NUL. -/
def strlen : List Char → Nat
  | [] => 0
  | c :: cs => if c = '\x00' then 0 else strlen cs + 1

/-- The text of a C string: the bytes before the first NUL. -/
def c_text (buf : List Char) : List Char := buf.take (strlen buf)

/-- The libc `strcmp`, reduced to what the callers test: `true` exactly when
`strcmp(a, b) == 0`, that is when the two strings have the same text. -/
def strcmp_eq (a b : List Char) : Bool := decide (c_text a = c_text b)

/-! ## Session state (`state_changed`) -/

/-- Modelled from the spec: the `STATE_*` constants are defined in
`socketcand.h`, which is not among the sources.  The spec lists them as the
enumerated values NoBus, Raw, Bcm, Isotp, Control, Shutdown. -/
inductive SessionState
  | STATE_NO_BUS
  | STATE_BCM
  | STATE_RAW
  | STATE_SHUTDOWN
  | STATE_CONTROL
  | STATE_ISOTP
  deriving DecidableEq, Repr

open SessionState

/-- The function `state_changed(buf, current_state)`.  The global `state` is
passed in as `state`; the result is the returned `int` and the new value of
the global. -/
def state_changed (buf : List Char) (current_state : SessionState)
    (state : SessionState) : Int × SessionState :=
  let state :=
    if strcmp_eq "< rawmode >".toList buf then STATE_RAW
    else if strcmp_eq "< bcmmode >".toList buf then STATE_BCM
    else if strcmp_eq "< isotpmode >".toList buf then STATE_ISOTP
    else if strcmp_eq "< controlmode >".toList buf then STATE_CONTROL
    else state
  (if current_state ≠ state then 1 else 0, state)

/-- Feeding a list of frames through `state_changed`, each call made with
`current_state` equal to the global `state`, as the mode handlers do.
Returns the `(return value, state)` pair of every call. -/
def feed_frames : SessionState → List (List Char) → List (Int × SessionState)
  | _, [] => []
  | s, f :: fs => state_changed f s s :: feed_frames (state_changed f s s).2 fs

/-! ## Tokenizer (`element_start`, `element_length`) -/

/-- The inner loop `while (buf[i] == ' ') i++;` of `element_start`, started
at `i`; returns the final `i`.  The first argument bounds the number of
iterations; the loop stops at the latest on the terminating NUL, so
`buf.length - i` iterations are always enough. -/
def skip_spaces (buf : List Char) : Nat → Nat → Nat
  | 0, i => i
  | fuel + 1, i => if at_index buf i = ' ' then skip_spaces buf fuel (i + 1) else i

/-- The `for (i = 0, elem = 0; i < len; i++)` loop of `element_start`, entered
with the current `i` and `elem`; returns the offset of the returned pointer
into `buf`, or `none` for `NULL`.  The first argument bounds the number of
iterations; every iteration advances `i`, so `len - i` are always enough. -/
def element_start_loop (buf : List Char) (len : Nat) (element : Int) :
    Nat → Nat → Int → Option Nat
  | 0, _, _ => none
  | fuel + 1, i, elem =>
    if i < len then
      if at_index buf i = ' ' then
        let elem := elem + 1
        let i := skip_spaces buf (buf.length - i) i
        if i ≥ len then none
        else if elem = element then some i
        else element_start_loop buf len element fuel (i + 1) elem
      else if elem = element then some i
      else element_start_loop buf len element fuel (i + 1) elem
    else none

/-- The function `element_start(buf, element)`: the offset into `buf` of the
returned pointer, `none` for `NULL`. -/
def element_start (buf : List Char) (element : Int) : Option Nat :=
  let len := strlen buf
  element_start_loop buf len element len 0 0

/-- The loop `while (j < len && elembuf[j] != ' ') j++;` of `element_length`;
the first argument bounds the number of iterations (`len - j` are enough). -/
def element_length_loop (elembuf : List Char) (len : Nat) : Nat → Nat → Nat
  | 0, j => j
  | fuel + 1, j =>
    if j < len ∧ at_index elembuf j ≠ ' ' then element_length_loop elembuf len fuel (j + 1)
    else j

/-- The function `element_length(buf, element)`. -/
def element_length (buf : List Char) (element : Int) : Int :=
  match element_start buf element with
  | none => 0
  | some p =>
    let elembuf := buf.drop p
    let len := strlen elembuf
    (element_length_loop elembuf len len 0 : Nat)

/-- The text found at an offset returned by `element_start`, cut to the
length returned by `element_length`: the element as a handler reads it. -/
def element_at (buf : List Char) (element : Int) : Option (List Char) :=
  (element_start buf element).map fun p =>
    (buf.drop p).take (element_length buf element).toNat

/-- The frame `<`, spaces, `e1`, spaces, ..., `en`, spaces, `>`: each entry of
`es` is an element together with the number of spaces in front of it, and
`k` is the number of spaces in front of the closing `>`. -/
def frame_body : List (Nat × List Char) → List Char
  | [] => []
  | (k, e) :: es => List.replicate k ' ' ++ e ++ frame_body es

/-- See `frame_body`. -/
def mk_frame (es : List (Nat × List Char)) (k : Nat) : List Char :=
  '<' :: (frame_body es ++ (List.replicate k ' ' ++ ['>']))

/-- The elements are well formed: each is non-empty, free of spaces and of
NUL bytes, and is preceded by at least one space. -/
def well_formed_elements (es : List (Nat × List Char)) : Prop :=
  ∀ p ∈ es, 1 ≤ p.1 ∧ p.2 ≠ [] ∧ ' ' ∉ p.2 ∧ '\x00' ∉ p.2

/-! ## Frame assembler (`receive_command`) -/

/-- What one call of `read(2)` on the client socket can deliver: an error
(return value -1) or some bytes (an empty list is the return value 0). -/
inductive ReadOutcome
  | error
  | data (bs : List Char)
  deriving DecidableEq, Repr

/-- The client socket: what the successive `read` calls will find.  Once the
list is exhausted the peer has closed and `read` returns 0. -/
abbrev Socket := List ReadOutcome

/-- The call `read(socket, p, count)`: the return value, the bytes stored at
`p`, and the socket afterwards.  A stream socket hands out at most `count`
bytes and keeps the rest for the next call. -/
def read : Socket → Nat → Int × List Char × Socket
  | [], _ => (0, [], [])
  | ReadOutcome.error :: rest, _ => (-1, [], rest)
  | ReadOutcome.data bs :: rest, count =>
    if bs.length ≤ count then ((bs.length : Int), bs, rest)
    else ((count : Int), bs.take count, ReadOutcome.data (bs.drop count) :: rest)

/-- Storing the bytes `bs` into the array `buf` from cell `pos` on. -/
def store (buf : List Char) : Nat → List Char → List Char
  | _, [] => buf
  | pos, b :: bs => store (buf.set pos b) (pos + 1) bs

/-- The search loops of `receive_command`:
`r = -1; for (i = lo; i < hi; i++) if (buf[i] == ch) { r = i; break; }`,
entered at `i` with `n` iterations left, that is `n = hi - i`. -/
def find_loop (buf : List Char) (ch : Char) : Nat → Nat → Int
  | _, 0 => -1
  | i, n + 1 => if at_index buf i = ch then (i : Int) else find_loop buf ch (i + 1) n

/-- See `find_loop`: the loop run from `lo` up to `hi` (exclusive). -/
def find_from (buf : List Char) (ch : Char) (lo : Nat) (hi : Int) : Int :=
  find_loop buf ch lo (hi - lo).toNat

/-- The copy loop `for (i = start; i <= stop; i++) buffer[i - start] = cmd_buffer[i];`
followed by `buffer[i - start] = 0`: the text left in the caller's buffer.
The loop is entered at `i` with `n` iterations left. -/
def copy_loop (cmd_buffer : List Char) : Nat → Nat → List Char
  | _, 0 => []
  | i, n + 1 => at_index cmd_buffer i :: copy_loop cmd_buffer (i + 1) n

/-- See `copy_loop`: the loop run from `start` to `stop` inclusive. -/
def copy_span (cmd_buffer : List Char) (start stop : Int) : List Char :=
  copy_loop cmd_buffer start.toNat (stop + 1 - start).toNat

/-- The compaction loop
`for (i = start; i < cmd_index; i++) cmd_buffer[i - start] = cmd_buffer[i];`,
entered at `i` with `n` iterations left. -/
def shift_loop (start : Nat) : List Char → Nat → Nat → List Char
  | buf, _, 0 => buf
  | buf, i, n + 1 => shift_loop start (buf.set (i - start) (at_index buf i)) (i + 1) n

/-- The globals of the frame assembler: the array `cmd_buffer` (all its
cells), the fill index `cmd_index` and the flag `more_elements`. -/
structure Conn where
  cmd_buffer : List Char
  cmd_index : Int
  more_elements : Bool
  deriving DecidableEq, Repr

/-- The outcome of `receive_command`: the return value, the bytes written to
the caller's `buffer` in front of the terminating NUL (`none` when the buffer
is left untouched), the globals and the socket afterwards, and the number of
`read` calls that were made. -/
structure Received where
  ret : Int
  buffer : Option (List Char)
  conn : Conn
  sock : Socket
  reads : Nat
  deriving DecidableEq, Repr

/-- The function `receive_command(socket, buffer)`.  `MAXLEN` is the size of
`cmd_buffer`, a constant of `socketcand.h`, which is not among the sources. -/
def receive_command (MAXLEN : Nat) (c : Conn) (sock : Socket) : Received :=
  let r :=
    if c.more_elements = false then
      let rd := read sock (MAXLEN - c.cmd_index).toNat
      (store c.cmd_buffer c.cmd_index.toNat rd.2.1, c.cmd_index + rd.1, rd.2.2, 1)
    else (c.cmd_buffer, c.cmd_index, sock, 0)
  let cmd_buffer := r.1
  let cmd_index := r.2.1
  let sock := r.2.2.1
  let reads := r.2.2.2
  let start := find_from cmd_buffer '<' 0 cmd_index
  if start = -1 then ⟨-1, none, ⟨cmd_buffer, 0, false⟩, sock, reads⟩
  else
    let stop := find_from cmd_buffer '>' 1 cmd_index
    if stop = -1 then ⟨-1, none, ⟨cmd_buffer, cmd_index, false⟩, sock, reads⟩
    else
      let buffer := copy_span cmd_buffer start stop
      if stop = cmd_index - 1 then ⟨0, some buffer, ⟨cmd_buffer, 0, false⟩, sock, reads⟩
      else
        let start := find_from cmd_buffer '<' stop.toNat cmd_index
        if start = -1 then ⟨0, some buffer, ⟨cmd_buffer, 0, false⟩, sock, reads⟩
        else
          let cmd_buffer :=
            shift_loop start.toNat cmd_buffer start.toNat (cmd_index - start).toNat
          let cmd_index := cmd_index - start
          let stop := find_from cmd_buffer '>' 1 cmd_index
          ⟨0, some buffer, ⟨cmd_buffer, cmd_index, decide (stop ≠ -1)⟩, sock, reads⟩

/-- The receive loop of a connection, as far as the frames go: call
`receive_command` again and again, collecting the text of every call that
returns 0, until the socket has nothing left and no frame is flagged as
buffered.  The first argument bounds the number of calls. -/
def drive (MAXLEN : Nat) : Nat → Conn → Socket → List (List Char) × Conn × Socket
  | 0, c, sock => ([], c, sock)
  | fuel + 1, c, sock =>
    if c.more_elements = false ∧ sock = [] then ([], c, sock)
    else
      let r := receive_command MAXLEN c sock
      let rest := drive MAXLEN fuel r.conn r.sock
      ((if r.ret = 0 then [r.buffer.getD []] else []) ++ rest.1, rest.2)

/-- The socket on which the byte stream arrives in the given chunks. -/
def chunks (cs : List (List Char)) : Socket := cs.map ReadOutcome.data

/-- An empty connection buffer of `MAXLEN` cells, no frame flagged. -/
def empty_conn (MAXLEN : Nat) : Conn := ⟨List.replicate MAXLEN '\x00', 0, false⟩

/-! ## The receive path of a connection (`main`, the mode handlers) -/

/-- The function `asc2nibble(c)`. -/
def asc2nibble (c : Char) : Int :=
  if '0'.toNat ≤ c.toNat ∧ c.toNat ≤ '9'.toNat then (c.toNat : Int) - '0'.toNat
  else if 'A'.toNat ≤ c.toNat ∧ c.toNat ≤ 'F'.toNat then (c.toNat : Int) - 'A'.toNat + 10
  else if 'a'.toNat ≤ c.toNat ∧ c.toNat ≤ 'f'.toNat then (c.toNat : Int) - 'a'.toNat + 10
  else 16

/-- The hexadecimal digits `0-9`, `A-F`, `a-f`. -/
def is_hex_digit (c : Char) : Prop :=
  c ∈ "0123456789ABCDEFabcdef".toList

/-- The value of a hexadecimal digit, read off the digit tables: the position
in `0123456789`, or 10 plus the position in `ABCDEF` or in `abcdef`; `none`
for every other character. -/
def hex_value (c : Char) : Option Nat :=
  if c ∈ "0123456789".toList then some ("0123456789".toList.indexOf c)
  else if c ∈ "ABCDEF".toList then some (10 + "ABCDEF".toList.indexOf c)
  else if c ∈ "abcdef".toList then some (10 + "abcdef".toList.indexOf c)
  else none

/-! ## Broadcast address (`determine_adress`) -/

/-- The complement `~x` of a `uint32_t`. -/
def not32 (x : Nat) : Nat := (2 ^ 32 - 1 - x % 2 ^ 32) % 2 ^ 32

/-- The broadcast address computed by `determine_adress`:
`broadcast_addr.sin_addr = addr; broadcast_addr.sin_addr.s_addr |= ~mask`,
where `addr` and `mask` are the `s_addr` words that the two `ioctl` calls
returned. -/
def determine_adress_broadcast (addr mask : Nat) : Nat :=
  ((addr % 2 ^ 32) ||| not32 mask) % 2 ^ 32

/-- The `s_addr` word of the dotted quad `a.b.c.d` (most significant byte first). -/
def ipv4 (a b c d : Nat) : Nat := ((a * 256 + b) * 256 + c) * 256 + d

/-- The cells `0 .. l.length - 1` of `buf` hold the bytes `l`. -/
def starts_with (buf l : List Char) : Prop :=
  ∀ t, t < l.length → at_index buf t = at_index l t

/-! # Lemmas -/

/-! ## Hex digits -/

theorem char_eq_of_toNat (c : Char) (n : Nat) (h : c.toNat = n) : c = Char.ofNat n := by
  rw [← h, Char.ofNat_toNat]

theorem hex_value_none (c : Char)
    (r1 : ¬ ('0'.toNat ≤ c.toNat ∧ c.toNat ≤ '9'.toNat))
    (r2 : ¬ ('A'.toNat ≤ c.toNat ∧ c.toNat ≤ 'F'.toNat))
    (r3 : ¬ ('a'.toNat ≤ c.toNat ∧ c.toNat ≤ 'f'.toNat)) : hex_value c = none := by
  have m1 : c ∉ "0123456789".toList := by
    intro hm
    simp only [String.toList, List.mem_cons, List.mem_singleton, List.not_mem_nil,
      or_false] at hm
    rcases hm with rfl | rfl | rfl | rfl | rfl | rfl | rfl | rfl | rfl | rfl <;>
      exact r1 (by decide)
  have m2 : c ∉ "ABCDEF".toList := by
    intro hm
    simp only [String.toList, List.mem_cons, List.mem_singleton, List.not_mem_nil,
      or_false] at hm
    rcases hm with rfl | rfl | rfl | rfl | rfl | rfl <;> exact r2 (by decide)
  have m3 : c ∉ "abcdef".toList := by
    intro hm
    simp only [String.toList, List.mem_cons, List.mem_singleton, List.not_mem_nil,
      or_false] at hm
    rcases hm with rfl | rfl | rfl | rfl | rfl | rfl <;> exact r3 (by decide)
  simp only [hex_value, if_neg m1, if_neg m2, if_neg m3]

theorem asc2nibble_ofNat (n : Nat) (h : (48 ≤ n ∧ n ≤ 57) ∨ (65 ≤ n ∧ n ≤ 70) ∨ (97 ≤ n ∧ n ≤ 102)) :
    asc2nibble (Char.ofNat n)
      = (match hex_value (Char.ofNat n) with | some v => (v : Int) | none => 16) := by
  rcases h with ⟨h1, h2⟩ | ⟨h1, h2⟩ | ⟨h1, h2⟩ <;> interval_cases n <;> decide

theorem asc2nibble_eq_hex_value (c : Char) :
    asc2nibble c = (match hex_value c with | some v => (v : Int) | none => 16) := by
  by_cases h : (48 ≤ c.toNat ∧ c.toNat ≤ 57) ∨ (65 ≤ c.toNat ∧ c.toNat ≤ 70)
      ∨ (97 ≤ c.toNat ∧ c.toNat ≤ 102)
  · have := asc2nibble_ofNat c.toNat h
    rwa [Char.ofNat_toNat] at this
  · have r1 : ¬ ('0'.toNat ≤ c.toNat ∧ c.toNat ≤ '9'.toNat) := fun hh => h (Or.inl hh)
    have r2 : ¬ ('A'.toNat ≤ c.toNat ∧ c.toNat ≤ 'F'.toNat) := fun hh => h (Or.inr (Or.inl hh))
    have r3 : ¬ ('a'.toNat ≤ c.toNat ∧ c.toNat ≤ 'f'.toNat) := fun hh => h (Or.inr (Or.inr hh))
    rw [hex_value_none c r1 r2 r3]
    simp only [asc2nibble, if_neg r1, if_neg r2, if_neg r3]

theorem hex_value_isSome_iff (c : Char) : (hex_value c).isSome = true ↔ is_hex_digit c := by
  unfold hex_value is_hex_digit
  have e : "0123456789ABCDEFabcdef".toList
      = "0123456789".toList ++ ("ABCDEF".toList ++ "abcdef".toList) := by decide
  rw [e]
  generalize "0123456789".toList = d
  generalize "ABCDEF".toList = u
  generalize "abcdef".toList = l
  simp only [List.mem_append]
  split_ifs with h1 h2 h3 <;> simp [*]

theorem hex_value_le (c : Char) : (hex_value c).getD 0 ≤ 15 := by
  unfold hex_value
  split_ifs with h1 h2 h3
  · have := List.indexOf_lt_length.mpr h1
    have hl : "0123456789".toList.length = 10 := by decide
    simp only [Option.getD_some]
    omega
  · have := List.indexOf_lt_length.mpr h2
    have hl : "ABCDEF".toList.length = 6 := by decide
    simp only [Option.getD_some]
    omega
  · have := List.indexOf_lt_length.mpr h3
    have hl : "abcdef".toList.length = 6 := by decide
    simp only [Option.getD_some]
    omega
  · simp

/-! ## Broadcast address -/

theorem not32_eq (m : Nat) (hm : m < 2 ^ 32) : not32 m = 2 ^ 32 - (m + 1) := by
  unfold not32
  rw [Nat.mod_eq_of_lt hm, Nat.mod_eq_of_lt (by omega)]
  omega

theorem determine_adress_broadcast_eq (a m : Nat) (ha : a < 2 ^ 32) (hm : m < 2 ^ 32) :
    determine_adress_broadcast a m = a ||| (2 ^ 32 - (m + 1)) := by
  unfold determine_adress_broadcast
  rw [Nat.mod_eq_of_lt ha, not32_eq m hm]
  exact Nat.mod_eq_of_lt (Nat.or_lt_two_pow ha (by omega))

/-! ## Session state -/

theorem strcmp_eq_literal (lit buf : List Char) (h : c_text lit = lit) :
    strcmp_eq lit buf = decide (c_text buf = lit) := by
  unfold strcmp_eq
  rw [h]
  by_cases h1 : lit = c_text buf
  · simp [h1]
  · have h2 : ¬ c_text buf = lit := fun e => h1 e.symm
    simp [h1, h2]

/-! ## C strings -/

theorem at_index_append_right (pre rest : List Char) (j : Nat) :
    at_index (pre ++ rest) (pre.length + j) = at_index rest j := by
  induction pre with
  | nil => simp
  | cons c pre ih =>
    have : (c :: pre).length + j = (pre.length + j) + 1 := by simp; omega
    rw [this]
    simpa [at_index] using ih

theorem at_index_append_length (pre rest : List Char) :
    at_index (pre ++ rest) pre.length = at_index rest 0 := by
  simpa using at_index_append_right pre rest 0

theorem at_index_ge (buf : List Char) (i : Nat) (h : buf.length ≤ i) :
    at_index buf i = '\x00' := by
  exact List.getD_eq_default _ _ h

theorem strlen_eq_length (l : List Char) (h : '\x00' ∉ l) : strlen l = l.length := by
  induction l with
  | nil => rfl
  | cons c cs ih =>
    have hc : c ≠ '\x00' := fun e => h (by simp [e])
    have hcs : '\x00' ∉ cs := fun e => h (by simp [e])
    simp [strlen, hc, ih hcs]

/-! ## Tokenizer -/

theorem skip_spaces_run (k : Nat) : ∀ (pre rest : List Char) (fuel : Nat), k ≤ fuel →
    at_index rest 0 ≠ ' ' →
    skip_spaces (pre ++ (List.replicate k ' ' ++ rest)) fuel pre.length = pre.length + k := by
  induction k with
  | zero =>
    intro pre rest fuel _ hr
    cases fuel with
    | zero => rfl
    | succ f =>
      simp only [skip_spaces, List.replicate_zero, List.nil_append, at_index_append_length]
      simp [hr]
  | succ k ih =>
    intro pre rest fuel hf hr
    cases fuel with
    | zero => omega
    | succ f =>
      have h1 : at_index (pre ++ (List.replicate (k + 1) ' ' ++ rest)) pre.length = ' ' := by
        rw [at_index_append_length]
        simp [List.replicate_succ, at_index]
      have h2 : pre ++ (List.replicate (k + 1) ' ' ++ rest)
          = (pre ++ [' ']) ++ (List.replicate k ' ' ++ rest) := by
        simp [List.replicate_succ]
      simp only [skip_spaces, h1, if_true]
      rw [h2]
      have := ih (pre ++ [' ']) rest f (by omega) hr
      simp only [List.length_append, List.length_singleton] at this
      rw [this]
      omega

theorem le_skip_spaces (buf : List Char) : ∀ (fuel i : Nat), i ≤ skip_spaces buf fuel i := by
  intro fuel
  induction fuel with
  | zero => intro i; simp [skip_spaces]
  | succ f ih =>
    intro i
    simp only [skip_spaces]
    split
    · exact Nat.le_trans (Nat.le_succ i) (ih (i + 1))
    · exact Nat.le_refl i

/-- The iteration bound of `skip_spaces` is never what stops it: with
`buf.length - i` iterations allowed the loop ends on a byte that is no space. -/
theorem skip_spaces_stops (buf : List Char) : ∀ (fuel i : Nat), buf.length - i ≤ fuel →
    at_index buf (skip_spaces buf fuel i) ≠ ' ' := by
  intro fuel
  induction fuel with
  | zero =>
    intro i h
    rw [skip_spaces, at_index_ge buf i (by omega)]
    decide
  | succ f ih =>
    intro i h
    simp only [skip_spaces]
    split
    · exact ih (i + 1) (by omega)
    · assumption

/-- The iteration bound of `element_length_loop` is never what stops it: with
`len - j` iterations allowed the loop ends because its condition fails. -/
theorem element_length_loop_stops (elembuf : List Char) (len : Nat) :
    ∀ (fuel j : Nat), len - j ≤ fuel →
      ¬ (element_length_loop elembuf len fuel j < len
          ∧ at_index elembuf (element_length_loop elembuf len fuel j) ≠ ' ') := by
  intro fuel
  induction fuel with
  | zero =>
    intro j h
    simp only [element_length_loop]
    omega
  | succ f ih =>
    intro j h
    simp only [element_length_loop]
    split
    · exact ih (j + 1) (by omega)
    · assumption

/-- The iteration bound of `element_start_loop` is immaterial once it covers
the distance to `len`: the loop never stops for lack of iterations. -/
theorem element_start_loop_fuel (buf : List Char) (len : Nat) (element : Int) :
    ∀ (f1 f2 i : Nat) (elem : Int), len - i ≤ f1 → len - i ≤ f2 →
      element_start_loop buf len element f1 i elem
        = element_start_loop buf len element f2 i elem := by
  intro f1
  induction f1 with
  | zero =>
    intro f2 i elem h1 _
    have hi : ¬ i < len := by omega
    cases f2 with
    | zero => rfl
    | succ f2 => simp [element_start_loop, hi]
  | succ f1 ih =>
    intro f2 i elem h1 h2
    cases f2 with
    | zero =>
      have hi : ¬ i < len := by omega
      simp [element_start_loop, hi]
    | succ f2 =>
      simp only [element_start_loop]
      have hs := le_skip_spaces buf (buf.length - i) i
      have e1 := ih f2 (i + 1) elem (by omega) (by omega)
      have e2 := ih f2 (skip_spaces buf (buf.length - i) i + 1) (elem + 1) (by omega) (by omega)
      rw [e1, e2]

theorem element_start_loop_end (buf : List Char) (len : Nat) (element : Int)
    (fuel i : Nat) (elem : Int) (h : len ≤ i) :
    element_start_loop buf len element fuel i elem = none := by
  cases fuel with
  | zero => rfl
  | succ f => simp [element_start_loop, Nat.not_lt.mpr h]

theorem element_start_loop_nonspace (buf : List Char) (len : Nat) (element : Int)
    (i : Nat) (elem : Int) (hi : i < len) (hc : at_index buf i ≠ ' ') (he : elem ≠ element) :
    element_start_loop buf len element len i elem
      = element_start_loop buf len element len (i + 1) elem := by
  obtain ⟨f, rfl⟩ : ∃ f, len = f + 1 := ⟨len - 1, by omega⟩
  rw [element_start_loop]
  simp only [hi, hc, he, if_true, if_false]
  exact element_start_loop_fuel buf (f + 1) element f (f + 1) (i + 1) elem (by omega) (by omega)

theorem element_start_loop_spaces_hit (buf : List Char) (len : Nat) (element : Int)
    (i j : Nat) (elem : Int) (hi : i < len) (hc : at_index buf i = ' ')
    (hj : skip_spaces buf (buf.length - i) i = j) (hjl : j < len) (he : elem + 1 = element) :
    element_start_loop buf len element len i elem = some j := by
  obtain ⟨f, rfl⟩ : ∃ f, len = f + 1 := ⟨len - 1, by omega⟩
  rw [element_start_loop]
  simp only [hi, hc, hj, he, if_true, ge_iff_le, Nat.not_le.mpr hjl, if_false]

theorem element_start_loop_spaces_miss (buf : List Char) (len : Nat) (element : Int)
    (i j : Nat) (elem : Int) (hi : i < len) (hc : at_index buf i = ' ')
    (hj : skip_spaces buf (buf.length - i) i = j) (hjl : j < len) (he : elem + 1 ≠ element) :
    element_start_loop buf len element len i elem
      = element_start_loop buf len element len (j + 1) (elem + 1) := by
  obtain ⟨f, rfl⟩ : ∃ f, len = f + 1 := ⟨len - 1, by omega⟩
  rw [element_start_loop]
  simp only [hi, hc, hj, he, if_true, ge_iff_le, Nat.not_le.mpr hjl, if_false]
  have := le_skip_spaces buf (buf.length - i) i
  rw [hj] at this
  exact element_start_loop_fuel buf (f + 1) element f (f + 1) (j + 1) (elem + 1)
    (by omega) (by omega)

theorem skip_spaces_at (buf pre rest : List Char) (k fuel : Nat)
    (hbuf : buf = pre ++ (List.replicate k ' ' ++ rest)) (hf : k ≤ fuel)
    (hr : at_index rest 0 ≠ ' ') : skip_spaces buf fuel pre.length = pre.length + k := by
  subst hbuf
  exact skip_spaces_run k pre rest fuel hf hr

theorem element_start_loop_walk (buf : List Char) (len : Nat) (element : Int) (elem : Int)
    (he : elem ≠ element) : ∀ (e pre rest : List Char), buf = pre ++ (e ++ rest) → ' ' ∉ e →
      pre.length + e.length ≤ len →
      element_start_loop buf len element len pre.length elem
        = element_start_loop buf len element len (pre.length + e.length) elem := by
  intro e
  induction e with
  | nil => intro pre rest _ _ _; simp
  | cons c e ih =>
    intro pre rest hbuf hsp hlen
    have hc : c ≠ ' ' := fun h => hsp (by simp [h])
    have hsp2 : ' ' ∉ e := fun h => hsp (by simp [h])
    simp only [List.length_cons] at hlen
    have h1 : at_index buf pre.length = c := by
      rw [hbuf, at_index_append_length]; rfl
    rw [element_start_loop_nonspace buf len element pre.length elem (by omega)
      (by rw [h1]; exact hc) he]
    have := ih (pre ++ [c]) rest (by simp [hbuf]) hsp2
      (by simp only [List.length_append, List.length_singleton]; omega)
    simp only [List.length_append, List.length_singleton] at this
    rw [this]
    simp only [List.length_cons]
    congr 1
    omega

theorem frame_body_append (es1 es2 : List (Nat × List Char)) :
    frame_body (es1 ++ es2) = frame_body es1 ++ frame_body es2 := by
  induction es1 with
  | nil => rfl
  | cons p es ih =>
    obtain ⟨k, e⟩ := p
    simp [frame_body, ih]

theorem well_formed_elements_cons (p : Nat × List Char) (es : List (Nat × List Char))
    (h : well_formed_elements (p :: es)) :
    (1 ≤ p.1 ∧ p.2 ≠ [] ∧ ' ' ∉ p.2 ∧ '\x00' ∉ p.2) ∧ well_formed_elements es :=
  ⟨h p (by simp), fun q hq => h q (by simp [hq])⟩

theorem well_formed_elements_append (es1 es2 : List (Nat × List Char))
    (h : well_formed_elements (es1 ++ es2)) :
    well_formed_elements es1 ∧ well_formed_elements es2 :=
  ⟨fun q hq => h q (by simp [hq]), fun q hq => h q (by simp [hq])⟩

/-- Walking over a run of elements that does not contain the requested one:
the loop arrives behind the run with `elem` advanced by their number. -/
theorem element_start_loop_body (buf : List Char) (len : Nat) (element : Int) :
    ∀ (es : List (Nat × List Char)) (pre tail : List Char) (elem : Int),
      well_formed_elements es → buf = pre ++ (frame_body es ++ tail) →
      pre.length + (frame_body es).length ≤ len →
      (∀ j : Nat, j < es.length → elem + 1 + j ≠ element) →
      element_start_loop buf len element len pre.length elem
        = element_start_loop buf len element len
            (pre.length + (frame_body es).length) (elem + es.length) := by
  intro es
  induction es with
  | nil => intro pre tail elem _ _ _ _; simp [frame_body]
  | cons p es ih =>
    intro pre tail elem hwf hbuf hlen hne
    obtain ⟨k, e⟩ := p
    obtain ⟨⟨hk, hne0, hsp, _⟩, hwf2⟩ := well_formed_elements_cons _ _ hwf
    simp only at hk hne0 hsp
    obtain ⟨c, e2, rfl⟩ : ∃ c e2, e = c :: e2 := by
      cases e with
      | nil => exact absurd rfl hne0
      | cons c e2 => exact ⟨c, e2, rfl⟩
    have hc : c ≠ ' ' := fun h => hsp (by simp [h])
    have hsp2 : ' ' ∉ e2 := fun h => hsp (by simp [h])
    simp only [frame_body, List.length_append, List.length_replicate, List.length_cons] at hlen
    have hbuflen : buf.length = pre.length + (k + (e2.length + 1)
        + (frame_body es).length + tail.length) := by
      simp [hbuf, frame_body]; omega
    -- the run of spaces in front of the element
    have hsp1 : at_index buf pre.length = ' ' := by
      rw [hbuf, at_index_append_length]
      obtain ⟨k2, rfl⟩ : ∃ k2, k = k2 + 1 := ⟨k - 1, by omega⟩
      simp [frame_body, List.replicate_succ, at_index]
    have hskip : skip_spaces buf (buf.length - pre.length) pre.length = pre.length + k :=
      skip_spaces_at buf pre ((c :: e2) ++ (frame_body es ++ tail)) k _
        (by simp [hbuf, frame_body]) (by omega) (by simpa [at_index] using hc)
    have h0 := hne 0 (by simp)
    simp only [Nat.cast_zero, add_zero] at h0
    rw [element_start_loop_spaces_miss buf len element pre.length (pre.length + k) elem
      (by omega) hsp1 hskip (by omega) h0]
    -- the rest of the element
    have hw := element_start_loop_walk buf len element (elem + 1) h0 e2
      (pre ++ (List.replicate k ' ' ++ [c])) (frame_body es ++ tail)
      (by simp [hbuf, frame_body]) hsp2
      (by simp only [List.length_append, List.length_replicate, List.length_singleton]; omega)
    simp only [List.length_append, List.length_replicate, List.length_singleton] at hw
    rw [show pre.length + k + 1 = pre.length + (k + 1) by omega, hw]
    -- the remaining elements
    have hi := ih (pre ++ (List.replicate k ' ' ++ (c :: e2))) tail (elem + 1) hwf2
      (by simp [hbuf, frame_body])
      (by simp only [List.length_append, List.length_replicate, List.length_cons]; omega)
      (by
        intro j hj
        have := hne (j + 1) (by simp; omega)
        push_cast at this
        intro hh
        apply this
        omega)
    simp only [List.length_append, List.length_replicate, List.length_cons] at hi
    rw [show pre.length + (k + 1) + e2.length = pre.length + (k + (e2.length + 1)) by omega, hi]
    simp only [frame_body, List.length_append, List.length_replicate, List.length_cons]
    congr 1
    · omega
    · push_cast; omega

theorem frame_body_no_nul (es : List (Nat × List Char)) (h : well_formed_elements es) :
    '\x00' ∉ frame_body es := by
  induction es with
  | nil => simp [frame_body]
  | cons p es ih =>
    obtain ⟨k, e⟩ := p
    obtain ⟨⟨_, _, _, hn⟩, hwf2⟩ := well_formed_elements_cons _ _ h
    simp only [frame_body, List.mem_append, not_or]
    refine ⟨⟨?_, hn⟩, ih hwf2⟩
    intro hm
    have := List.eq_of_mem_replicate hm
    exact absurd this (by decide)

theorem tail_no_nul (k : Nat) : '\x00' ∉ List.replicate k ' ' ++ ['>'] := by
  simp only [List.mem_append, not_or]
  refine ⟨?_, by decide⟩
  intro hm
  exact absurd (List.eq_of_mem_replicate hm) (by decide)

theorem mk_frame_no_nul (es : List (Nat × List Char)) (k : Nat) (h : well_formed_elements es) :
    '\x00' ∉ mk_frame es k := by
  unfold mk_frame
  intro hm
  rcases List.mem_cons.mp hm with h1 | h1
  · exact absurd h1 (by decide)
  · rcases List.mem_append.mp h1 with h2 | h2
    · exact frame_body_no_nul es h h2
    · exact tail_no_nul k h2

theorem mk_frame_length (es : List (Nat × List Char)) (k : Nat) :
    (mk_frame es k).length = 1 + (frame_body es).length + k + 1 := by
  simp [mk_frame]; omega

/-- What follows an element in a frame starts with a space. -/
theorem frame_rest_space (es : List (Nat × List Char)) (k : Nat)
    (h : well_formed_elements es) (hk : 1 ≤ k) :
    ∃ rest, frame_body es ++ (List.replicate k ' ' ++ ['>']) = ' ' :: rest := by
  cases es with
  | nil =>
    obtain ⟨k2, rfl⟩ : ∃ k2, k = k2 + 1 := ⟨k - 1, by omega⟩
    exact ⟨List.replicate k2 ' ' ++ ['>'], by simp [frame_body, List.replicate_succ]⟩
  | cons p es =>
    obtain ⟨k1, e⟩ := p
    obtain ⟨⟨hk1, _, _, _⟩, _⟩ := well_formed_elements_cons _ _ h
    simp only at hk1
    obtain ⟨k2, rfl⟩ : ∃ k2, k1 = k2 + 1 := ⟨k1 - 1, by omega⟩
    exact ⟨List.replicate k2 ' ' ++ (e ++ (frame_body es ++ (List.replicate k ' ' ++ ['>']))),
      by simp [frame_body, List.replicate_succ]⟩

theorem element_length_loop_run (elembuf : List Char) (len : Nat) :
    ∀ (e pre rest : List Char) (fuel : Nat), elembuf = pre ++ (e ++ rest) → ' ' ∉ e →
      (at_index rest 0 = ' ' ∨ len = pre.length + e.length) → e.length ≤ fuel →
      pre.length + e.length ≤ len →
      element_length_loop elembuf len fuel pre.length = pre.length + e.length := by
  intro e
  induction e with
  | nil =>
    intro pre rest fuel hbuf _ hr _ _
    cases fuel with
    | zero => rfl
    | succ f =>
      have : ¬ (pre.length < len ∧ at_index elembuf pre.length ≠ ' ') := by
        rintro ⟨h1, h2⟩
        rcases hr with hr | hr
        · apply h2
          rw [hbuf, at_index_append_length]
          simpa using hr
        · simp at hr; omega
      simp [element_length_loop, this]
  | cons c e ih =>
    intro pre rest fuel hbuf hsp hr hf hlen
    have hc : c ≠ ' ' := fun h => hsp (by simp [h])
    have hsp2 : ' ' ∉ e := fun h => hsp (by simp [h])
    simp only [List.length_cons] at hf hlen hr
    obtain ⟨f, rfl⟩ : ∃ f, fuel = f + 1 := ⟨fuel - 1, by omega⟩
    have h1 : at_index elembuf pre.length = c := by
      rw [hbuf, at_index_append_length]; rfl
    have h2 : pre.length < len ∧ at_index elembuf pre.length ≠ ' ' :=
      ⟨by omega, by rw [h1]; exact hc⟩
    rw [element_length_loop, if_pos h2]
    have := ih (pre ++ [c]) rest f (by simp [hbuf]) hsp2
      (hr.imp id (fun h => by
        simp only [List.length_append, List.length_singleton]; omega)) (by omega)
      (by simp only [List.length_append, List.length_singleton]; omega)
    simp only [List.length_append, List.length_singleton] at this
    rw [this]
    simp only [List.length_cons]
    omega

/-- The `i`-th element (`i = es1.length + 1`) of a well-formed frame:
`element_start` returns its offset and `element_length` its length. -/
theorem element_start_length_split (es1 : List (Nat × List Char)) (k : Nat) (e : List Char)
    (es2 : List (Nat × List Char)) (kLast : Nat)
    (hwf : well_formed_elements (es1 ++ (k, e) :: es2)) (hk : 1 ≤ kLast) :
    element_start (mk_frame (es1 ++ (k, e) :: es2) kLast) (es1.length + 1)
        = some (1 + (frame_body es1).length + k)
    ∧ element_length (mk_frame (es1 ++ (k, e) :: es2) kLast) (es1.length + 1) = e.length
    ∧ (mk_frame (es1 ++ (k, e) :: es2) kLast).drop (1 + (frame_body es1).length + k)
        = e ++ (frame_body es2 ++ (List.replicate kLast ' ' ++ ['>'])) := by
  obtain ⟨hwf1, hwf2'⟩ := well_formed_elements_append _ _ hwf
  obtain ⟨⟨hk1, hne0, hsp, hnul⟩, hwf2⟩ := well_formed_elements_cons _ _ hwf2'
  simp only at hk1 hne0 hsp hnul
  obtain ⟨c, e2, rfl⟩ : ∃ c e2, e = c :: e2 := by
    cases e with
    | nil => exact absurd rfl hne0
    | cons c e2 => exact ⟨c, e2, rfl⟩
  have hc : c ≠ ' ' := fun h => hsp (by simp [h])
  generalize hF : mk_frame (es1 ++ (k, c :: e2) :: es2) kLast = frame
  have hlen : strlen frame = frame.length := by
    rw [← hF]; exact strlen_eq_length _ (mk_frame_no_nul _ _ hwf)
  have hbuf : frame = ['<'] ++ (frame_body es1 ++
      (List.replicate k ' ' ++ ((c :: e2) ++ (frame_body es2
        ++ (List.replicate kLast ' ' ++ ['>']))))) := by
    rw [← hF]; simp [mk_frame, frame_body_append, frame_body]
  have hflen : frame.length = 1 + (frame_body es1).length + k + (e2.length + 1)
      + (frame_body es2).length + kLast + 1 := by
    rw [hbuf]; simp; omega
  have hdrop : frame.drop (1 + (frame_body es1).length + k)
      = (c :: e2) ++ (frame_body es2 ++ (List.replicate kLast ' ' ++ ['>'])) := by
    have : frame = (['<'] ++ frame_body es1 ++ List.replicate k ' ') ++
        ((c :: e2) ++ (frame_body es2 ++ (List.replicate kLast ' ' ++ ['>']))) := by
      rw [hbuf]; simp
    rw [this]
    apply List.drop_left'
    simp
    omega
  have hstart : element_start frame (es1.length + 1)
      = some (1 + (frame_body es1).length + k) := by
    unfold element_start
    simp only [hlen]
    have h0 : at_index frame 0 ≠ ' ' := by
      rw [hbuf]; simp [at_index]
    rw [element_start_loop_nonspace frame frame.length _ 0 0 (by omega) h0 (by omega)]
    have hb := element_start_loop_body frame frame.length (es1.length + 1) es1 ['<'] _ 0
      hwf1 hbuf (by simp only [List.length_singleton]; omega)
      (by intro j hj; omega)
    simp only [List.length_singleton, zero_add] at hb
    rw [show (0:Nat) + 1 = 1 by rfl, hb]
    have hsp1 : at_index frame (1 + (frame_body es1).length) = ' ' := by
      have : frame = (['<'] ++ frame_body es1) ++ (List.replicate k ' ' ++ ((c :: e2) ++
          (frame_body es2 ++ (List.replicate kLast ' ' ++ ['>'])))) := by
        rw [hbuf]; simp
      rw [this, show 1 + (frame_body es1).length = (['<'] ++ frame_body es1).length by
        simp; omega, at_index_append_length]
      obtain ⟨k2, rfl⟩ : ∃ k2, k = k2 + 1 := ⟨k - 1, by omega⟩
      simp [List.replicate_succ, at_index]
    have hskip := skip_spaces_at frame (['<'] ++ frame_body es1)
      ((c :: e2) ++ (frame_body es2 ++ (List.replicate kLast ' ' ++ ['>']))) k
      (frame.length - (1 + (frame_body es1).length))
      (by rw [hbuf]; simp) (by omega) (by simpa [at_index] using hc)
    simp only [List.length_append, List.length_singleton] at hskip
    exact element_start_loop_spaces_hit frame frame.length _ _ _ _ (by omega) hsp1 hskip
      (by omega) rfl
  refine ⟨hstart, ?_, hdrop⟩
  unfold element_length
  rw [hstart]
  simp only [hdrop]
  obtain ⟨rest, hrest⟩ := frame_rest_space es2 kLast hwf2 hk
  rw [hrest]
  have hnul2 : '\x00' ∉ (c :: e2) ++ ' ' :: rest := by
    rw [← hrest]
    intro hm
    rcases List.mem_append.mp hm with h1 | h1
    · exact hnul h1
    · rcases List.mem_append.mp h1 with h2 | h2
      · exact frame_body_no_nul es2 hwf2 h2
      · exact tail_no_nul kLast h2
  rw [strlen_eq_length _ hnul2]
  have := element_length_loop_run ((c :: e2) ++ ' ' :: rest) ((c :: e2) ++ ' ' :: rest).length
    (c :: e2) [] (' ' :: rest) ((c :: e2) ++ ' ' :: rest).length (by simp) hsp
    (Or.inl rfl) (by simp) (by simp)
  simp only [List.length_nil, zero_add] at this
  rw [this]

/-- Beyond the last element of a well-formed frame: index `n + 1` is the
closing `>` (length 1), every later index is absent. -/
theorem element_start_length_past (es : List (Nat × List Char)) (kLast : Nat)
    (hwf : well_formed_elements es) (hk : 1 ≤ kLast) (element : Int)
    (h : (es.length : Int) + 1 ≤ element) :
    element_start (mk_frame es kLast) element
        = (if element = es.length + 1 then some (1 + (frame_body es).length + kLast) else none)
    ∧ element_length (mk_frame es kLast) element
        = (if element = es.length + 1 then 1 else 0) := by
  generalize hF : mk_frame es kLast = frame
  have hlen : strlen frame = frame.length := by
    rw [← hF]; exact strlen_eq_length _ (mk_frame_no_nul _ _ hwf)
  have hbuf : frame = ['<'] ++ (frame_body es ++ (List.replicate kLast ' ' ++ ['>'])) := by
    rw [← hF]; simp [mk_frame]
  have hflen : frame.length = 1 + (frame_body es).length + kLast + 1 := by
    rw [← hF]; exact mk_frame_length es kLast
  have hloop : element_start frame element
      = element_start_loop frame frame.length element frame.length
          (1 + (frame_body es).length) es.length := by
    unfold element_start
    simp only [hlen]
    have h0 : at_index frame 0 ≠ ' ' := by
      rw [hbuf]; simp [at_index]
    rw [element_start_loop_nonspace frame frame.length _ 0 0 (by omega) h0 (by omega)]
    have hb := element_start_loop_body frame frame.length element es ['<'] _ 0
      hwf hbuf (by simp only [List.length_singleton]; omega)
      (by intro j hj; omega)
    simp only [List.length_singleton, zero_add] at hb
    rw [show (0:Nat) + 1 = 1 by rfl, hb]
  have hsp1 : at_index frame (1 + (frame_body es).length) = ' ' := by
    have : frame = (['<'] ++ frame_body es) ++ (List.replicate kLast ' ' ++ ['>']) := by
      rw [hbuf]; simp
    rw [this, show 1 + (frame_body es).length = (['<'] ++ frame_body es).length by
      simp; omega, at_index_append_length]
    obtain ⟨k2, rfl⟩ : ∃ k2, kLast = k2 + 1 := ⟨kLast - 1, by omega⟩
    simp [List.replicate_succ, at_index]
  have hskip := skip_spaces_at frame (['<'] ++ frame_body es) ['>'] kLast
    (frame.length - (1 + (frame_body es).length))
    (by rw [hbuf]; simp) (by omega) (by decide)
  simp only [List.length_append, List.length_singleton] at hskip
  by_cases hel : element = es.length + 1
  · have hstart : element_start frame element
        = some (1 + (frame_body es).length + kLast) := by
      rw [hloop]
      exact element_start_loop_spaces_hit frame frame.length _ _ _ _ (by omega) hsp1 hskip
        (by omega) hel.symm
    refine ⟨by rw [hstart, if_pos hel], ?_⟩
    rw [if_pos hel]
    unfold element_length
    rw [hstart]
    have hdrop : frame.drop (1 + (frame_body es).length + kLast) = ['>'] := by
      have : frame = (['<'] ++ frame_body es ++ List.replicate kLast ' ') ++ ['>'] := by
        rw [hbuf]; simp
      rw [this]
      apply List.drop_left'
      simp
      omega
    simp only [hdrop]
    decide
  · have hstart : element_start frame element = none := by
      rw [hloop, element_start_loop_spaces_miss frame frame.length _ _ _ _ (by omega) hsp1
        hskip (by omega) (fun hh => hel hh.symm)]
      exact element_start_loop_end _ _ _ _ _ _ (by omega)
    refine ⟨by rw [hstart, if_neg hel], ?_⟩
    rw [if_neg hel]
    unfold element_length
    rw [hstart]

theorem well_formed_split (es : List (Nat × List Char)) (i : Nat) (h1 : 1 ≤ i)
    (h2 : i ≤ es.length) :
    es = es.take (i - 1) ++ (es.getD (i - 1) (0, [])) :: es.drop i := by
  have hlt : i - 1 < es.length := by omega
  have e1 : es.getD (i - 1) (0, []) = es[i - 1] := by
    simp [List.getD, List.getElem?_eq_getElem hlt]
  rw [e1]
  have := List.take_append_drop (i - 1) es
  conv_lhs => rw [← this]
  congr 1
  have hd := List.drop_eq_getElem_cons hlt
  rw [hd]
  congr 2
  omega

/-! ## Frame assembler -/

theorem at_index_set (buf : List Char) (p t : Nat) (v : Char) :
    at_index (buf.set p v) t = if t = p ∧ p < buf.length then v else at_index buf t := by
  unfold at_index
  simp only [List.getD_eq_getElem?_getD, List.getElem?_set]
  by_cases h : p = t
  · subst h
    by_cases h2 : p < buf.length
    · simp [h2]
    · simp [h2, List.getElem?_eq_none (Nat.not_lt.mp h2)]
  · have h3 : ¬ t = p := fun e => h e.symm
    simp [h, h3]

theorem at_index_append_left (pre rest : List Char) (t : Nat) (h : t < pre.length) :
    at_index (pre ++ rest) t = at_index pre t := by
  unfold at_index
  simp [List.getD_eq_getElem?_getD, List.getElem?_append_left h]

theorem at_index_mem (l : List Char) (t : Nat) (h : t < l.length) : at_index l t ∈ l := by
  unfold at_index
  rw [List.getD_eq_getElem _ _ h]
  exact List.getElem_mem h

theorem store_spec : ∀ (bs buf : List Char) (pos : Nat), pos + bs.length ≤ buf.length →
    (store buf pos bs).length = buf.length
    ∧ (∀ t, t < bs.length → at_index (store buf pos bs) (pos + t) = at_index bs t)
    ∧ (∀ t, t < pos → at_index (store buf pos bs) t = at_index buf t) := by
  intro bs
  induction bs with
  | nil => intro buf pos _; simp [store]
  | cons b bs ih =>
    intro buf pos h
    simp only [List.length_cons] at h
    obtain ⟨i1, i2, i3⟩ := ih (buf.set pos b) (pos + 1) (by simp; omega)
    simp only [store]
    refine ⟨by simpa using i1, ?_, ?_⟩
    · intro t ht
      cases t with
      | zero =>
        show at_index (store (buf.set pos b) (pos + 1) bs) pos = b
        rw [i3 pos (by omega), at_index_set]
        simp
        omega
      | succ t =>
        have := i2 t (by simpa using ht)
        rw [show pos + (t + 1) = pos + 1 + t by omega, this]
        simp [at_index]
    · intro t ht
      rw [i3 t (by omega), at_index_set]
      simp
      omega

theorem find_loop_found (buf : List Char) (ch : Char) : ∀ (n i j : Nat), i ≤ j → j < i + n →
    at_index buf j = ch → (∀ t, i ≤ t → t < j → at_index buf t ≠ ch) →
    find_loop buf ch i n = (j : Int) := by
  intro n
  induction n with
  | zero => intro i j h1 h2; omega
  | succ n ih =>
    intro i j h1 h2 h3 h4
    simp only [find_loop]
    by_cases hij : i = j
    · subst hij; simp [h3]
    · rw [if_neg (h4 i (Nat.le_refl i) (by omega))]
      exact ih (i + 1) j (by omega) (by omega) h3 (fun t ht1 ht2 => h4 t (by omega) ht2)

theorem find_loop_none (buf : List Char) (ch : Char) : ∀ (n i : Nat),
    (∀ t, i ≤ t → t < i + n → at_index buf t ≠ ch) → find_loop buf ch i n = -1 := by
  intro n
  induction n with
  | zero => intro i _; rfl
  | succ n ih =>
    intro i h
    simp only [find_loop]
    rw [if_neg (h i (Nat.le_refl i) (by omega))]
    exact ih (i + 1) (fun t ht1 ht2 => h t (by omega) (by omega))

theorem copy_loop_eq (buf : List Char) : ∀ (l : List Char) (i : Nat),
    (∀ t, t < l.length → at_index buf (i + t) = at_index l t) →
    copy_loop buf i l.length = l := by
  intro l
  induction l with
  | nil => intro i _; rfl
  | cons c l ih =>
    intro i h
    simp only [List.length_cons, copy_loop]
    have h0 := h 0 (by simp)
    simp only [Nat.add_zero] at h0
    rw [h0]
    congr 1
    apply ih
    intro t ht
    have := h (t + 1) (by simpa using ht)
    rw [show i + 1 + t = i + (t + 1) by omega, this]
    simp [at_index]

theorem shift_loop_spec (start : Nat) : ∀ (n : Nat) (buf : List Char) (i : Nat),
    start ≤ i → i + n ≤ buf.length →
    (shift_loop start buf i n).length = buf.length
    ∧ (∀ t, t < i - start → at_index (shift_loop start buf i n) t = at_index buf t)
    ∧ (∀ t, i - start ≤ t → t < i - start + n →
        at_index (shift_loop start buf i n) t = at_index buf (t + start)) := by
  intro n
  induction n with
  | zero =>
    intro buf i _ _
    refine ⟨rfl, fun t _ => rfl, fun t h1 h2 => ?_⟩
    omega
  | succ n ih =>
    intro buf i h1 h2
    simp only [shift_loop]
    obtain ⟨i1, i2, i3⟩ := ih (buf.set (i - start) (at_index buf i)) (i + 1) (by omega)
      (by simp; omega)
    refine ⟨by simpa using i1, ?_, ?_⟩
    · intro t ht
      rw [i2 t (by omega), at_index_set, if_neg (by omega)]
    · intro t ht1 ht2
      by_cases hti : t = i - start
      · rw [i2 t (by omega), at_index_set, if_pos ⟨hti, by omega⟩]
        congr 1
        omega
      · rw [i3 t (by omega) (by omega), at_index_set, if_neg (by omega)]

theorem find_from_found (buf : List Char) (ch : Char) (lo j n : Nat) (h1 : lo ≤ j) (h2 : j < n)
    (h3 : at_index buf j = ch) (h4 : ∀ t, lo ≤ t → t < j → at_index buf t ≠ ch) :
    find_from buf ch lo (n : Int) = (j : Int) := by
  unfold find_from
  exact find_loop_found buf ch _ lo j h1 (by omega) h3 h4

theorem find_from_none (buf : List Char) (ch : Char) (lo : Nat) (hi : Int)
    (h : ∀ t : Nat, lo ≤ t → (t : Int) < hi → at_index buf t ≠ ch) :
    find_from buf ch lo hi = -1 := by
  unfold find_from
  exact find_loop_none buf ch _ lo (fun t ht1 ht2 => h t ht1 (by omega))

/-- A frame `<` body `>` followed by `rest`, cell by cell. -/
theorem frame_cells (b rest : List Char) :
    at_index ('<' :: (b ++ ['>']) ++ rest) 0 = '<'
    ∧ (∀ t, 1 ≤ t → t ≤ b.length → at_index ('<' :: (b ++ ['>']) ++ rest) t ∈ b)
    ∧ at_index ('<' :: (b ++ ['>']) ++ rest) (b.length + 1) = '>'
    ∧ (∀ t, at_index ('<' :: (b ++ ['>']) ++ rest) (b.length + 2 + t) = at_index rest t) := by
  refine ⟨rfl, ?_, ?_, ?_⟩
  · intro t h1 h2
    have e : '<' :: (b ++ ['>']) ++ rest = (['<'] ++ b) ++ (['>'] ++ rest) := by simp
    obtain ⟨s, rfl⟩ : ∃ s, t = s + 1 := ⟨t - 1, by omega⟩
    have : at_index ('<' :: (b ++ ['>']) ++ rest) (s + 1) = at_index b s := by
      show at_index ((b ++ ['>']) ++ rest) s = at_index b s
      rw [List.append_assoc, at_index_append_left _ _ _ (by omega)]
    rw [this]
    exact at_index_mem b s (by omega)
  · show at_index ((b ++ ['>']) ++ rest) b.length = '>'
    rw [List.append_assoc, at_index_append_length]
    rfl
  · intro t
    have e : '<' :: (b ++ ['>']) ++ rest = ('<' :: (b ++ ['>'])) ++ rest := rfl
    have := at_index_append_right ('<' :: (b ++ ['>'])) rest t
    simp only [List.length_cons, List.length_append, List.length_singleton] at this
    rw [← this]
    congr 1

/-- The scan of a buffer whose first cells hold a frame `<` body `>`
followed by `rest`. -/
theorem scan_frame (buf b rest : List Char) (idx stop : Int) (hb : '>' ∉ b)
    (hs : starts_with buf ('<' :: (b ++ ['>']) ++ rest))
    (hn : idx = (('<' :: (b ++ ['>']) ++ rest).length : Int))
    (hstop : stop = (b.length : Int) + 1) :
    find_from buf '<' 0 idx = 0
    ∧ find_from buf '>' 1 idx = stop
    ∧ copy_span buf 0 stop = '<' :: (b ++ ['>']) := by
  obtain ⟨c0, c1, c2, c3⟩ := frame_cells b rest
  have hlen : ('<' :: (b ++ ['>']) ++ rest).length = b.length + 2 + rest.length := by
    simp; omega
  have hst : stop = ((b.length + 1 : Nat) : Int) := by rw [hstop]; push_cast; rfl
  rw [hn, hst]
  refine ⟨?_, ?_, ?_⟩
  · exact find_from_found buf '<' 0 0 _ (Nat.le_refl 0) (by omega)
      (by rw [hs 0 (by omega), c0]) (fun t h1 h2 => by omega)
  · refine find_from_found buf '>' 1 (b.length + 1) _ (by omega) (by omega)
      (by rw [hs _ (by omega), c2]) (fun t h1 h2 => ?_)
    rw [hs t (by omega)]
    intro hh
    exact hb (hh ▸ c1 t h1 (by omega))
  · unfold copy_span
    have e : (((b.length + 1 : Nat) : Int) + 1 - 0).toNat = ('<' :: (b ++ ['>'])).length := by
      have e2 : ((b.length + 1 : Nat) : Int) + 1 - 0 = ((b.length + 2 : Nat) : Int) := by
        push_cast; ring
      rw [e2, Int.toNat_ofNat]
      simp
    rw [e]
    apply copy_loop_eq
    intro t ht
    simp only [Int.toNat_zero, Nat.zero_add]
    have ht2 : t < b.length + 2 := by
      simpa only [List.length_cons, List.length_append, List.length_singleton] using ht
    rw [hs t (by omega)]
    exact at_index_append_left ('<' :: (b ++ ['>'])) rest t ht

/-- A flagged call on a buffer holding exactly one frame: no read, the frame
is returned and the buffer is left empty. -/
theorem receive_command_flagged_single (MAXLEN : Nat) (buf b : List Char) (idx : Int)
    (sock : Socket) (hb : '>' ∉ b) (hs : starts_with buf ('<' :: (b ++ ['>'])))
    (hidx : idx = (b.length : Int) + 2) :
    receive_command MAXLEN ⟨buf, idx, true⟩ sock
      = ⟨0, some ('<' :: (b ++ ['>'])), ⟨buf, 0, false⟩, sock, 0⟩ := by
  obtain ⟨s1, s2, s3⟩ := scan_frame buf b [] idx (idx - 1) hb (by simpa using hs)
    (by rw [hidx]; simp; ring) (by omega)
  unfold receive_command
  simp only [Bool.true_eq_false, if_false, s1, s2, s3]
  simp
  omega

theorem read_fits (bs : List Char) (rest : Socket) (count : Nat) (h : bs.length ≤ count) :
    read (ReadOutcome.data bs :: rest) count = ((bs.length : Int), bs, rest) := by
  simp [read, h]

/-- The call that reads two frames at once into an empty buffer returns the
first, keeps the second at the front of the buffer and raises the flag. -/
theorem receive_command_two_frames (MAXLEN : Nat) (b1 b2 cells : List Char) (rest : Socket)
    (h1 : '>' ∉ b1) (h2 : '>' ∉ b2) (hlen : b1.length + b2.length + 4 ≤ MAXLEN)
    (hcells : cells.length = MAXLEN) :
    ∃ buf2, starts_with buf2 ('<' :: (b2 ++ ['>'])) ∧
      receive_command MAXLEN ⟨cells, 0, false⟩
          (ReadOutcome.data ('<' :: (b1 ++ ['>']) ++ '<' :: (b2 ++ ['>'])) :: rest)
        = ⟨0, some ('<' :: (b1 ++ ['>'])), ⟨buf2, (b2.length : Int) + 2, true⟩, rest, 1⟩ := by
  generalize hbs : '<' :: (b1 ++ ['>']) ++ '<' :: (b2 ++ ['>']) = bs
  have hbl : bs.length = b1.length + b2.length + 4 := by
    rw [← hbs]; simp; omega
  have hread := read_fits bs rest ((MAXLEN : Int) - 0).toNat (by simp; omega)
  obtain ⟨st1, st2, _⟩ := store_spec bs cells 0 (by omega)
  generalize hbuf1 : store cells 0 bs = buf1 at st1 st2
  have hs1 : starts_with buf1 bs := by
    intro t ht
    have := st2 t ht
    rwa [Nat.zero_add] at this
  obtain ⟨c0, c1, c2, c3⟩ := frame_cells b1 ('<' :: (b2 ++ ['>']))
  rw [hbs] at c0 c1 c2 c3
  generalize hidx : (0 : Int) + (bs.length : Int) = idx
  have hidx2 : idx = (bs.length : Int) := by omega
  obtain ⟨s1, s2, s3⟩ := scan_frame buf1 b1 ('<' :: (b2 ++ ['>'])) idx ((b1.length : Int) + 1)
    h1 (by rw [hbs]; exact hs1) (by rw [hbs]; exact hidx2) rfl
  -- the `<` of the second frame
  have s4 : find_from buf1 '<' ((b1.length : Int) + 1).toNat idx
      = ((b1.length + 2 : Nat) : Int) := by
    rw [hidx2, show ((b1.length : Int) + 1).toNat = b1.length + 1 by omega]
    refine find_from_found buf1 '<' (b1.length + 1) (b1.length + 2) _ (by omega) (by omega)
      ?_ (fun t ht1 ht2 => ?_)
    · rw [hs1 _ (by omega)]
      have := c3 0
      rw [Nat.add_zero] at this
      rw [this]; rfl
    · have : t = b1.length + 1 := by omega
      rw [this, hs1 _ (by omega), c2]
      decide
  -- compaction
  obtain ⟨_, _, sh⟩ := shift_loop_spec (b1.length + 2) (b2.length + 2) buf1 (b1.length + 2)
    (Nat.le_refl _) (by omega)
  generalize hbuf2 : shift_loop (b1.length + 2) buf1 (b1.length + 2) (b2.length + 2) = buf2 at sh
  have hs2 : starts_with buf2 ('<' :: (b2 ++ ['>'])) := by
    intro t ht
    have ht2 : t < b2.length + 2 := by
      simpa only [List.length_cons, List.length_append, List.length_singleton] using ht
    rw [sh t (by omega) (by omega), hs1 _ (by omega),
      show t + (b1.length + 2) = b1.length + 2 + t by omega, c3 t]
  obtain ⟨_, s5, _⟩ := scan_frame buf2 b2 [] (idx - ((b1.length + 2 : Nat) : Int))
    ((b2.length : Int) + 1) h2 (by simpa using hs2)
    (by rw [hidx2, hbl]; simp; omega) rfl
  refine ⟨buf2, hs2, ?_⟩
  unfold receive_command
  simp only [if_true, hread, Int.toNat_zero, hbuf1, hidx, s1, s2, s3, s4, Int.toNat_ofNat]
  have e1 : (idx - ((b1.length + 2 : Nat) : Int)).toNat = b2.length + 2 := by omega
  rw [e1, hbuf2, s5]
  have e2 : ¬ ((b1.length : Int) + 1 = idx - 1) := by omega
  have e3 : idx - ((b1.length + 2 : Nat) : Int) = (b2.length : Int) + 2 := by omega
  have n1 : ¬ ((b1.length : Int) + 1 = -1) := by omega
  have n2 : ¬ ((b1.length : Int) + 2 = -1) := by omega
  have n3 : ¬ ((b2.length : Int) + 1 = -1) := by omega
  have e4 : idx - ((b1.length : Int) + 2) = (b2.length : Int) + 2 := by omega
  simp [e2, e3, n1, n2, n3, e4]

theorem find_loop_eq_neg_one (buf : List Char) (ch : Char) : ∀ (n i : Nat),
    find_loop buf ch i n = -1 → ∀ t, i ≤ t → t < i + n → at_index buf t ≠ ch := by
  intro n
  induction n with
  | zero => intro i _ t h1 h2; omega
  | succ n ih =>
    intro i h t h1 h2
    simp only [find_loop] at h
    by_cases hc : at_index buf i = ch
    · rw [if_pos hc] at h
      omega
    · rw [if_neg hc] at h
      by_cases hti : t = i
      · rw [hti]; exact hc
      · exact ih (i + 1) h t (by omega) (by omega)

/-- A successful read after which the buffer holds a `<` and no `>` from cell
1 on: the call returns -1 and keeps every byte, the old ones followed by the
new ones. -/
theorem receive_command_incomplete (MAXLEN n : Nat) (c : Conn) (bs : List Char)
    (rest : Socket) (hidx : c.cmd_index = (n : Int)) (hflag : c.more_elements = false)
    (hlen : c.cmd_buffer.length = MAXLEN) (hfit : n + bs.length ≤ MAXLEN)
    (hlt : ∃ j, j < n + bs.length ∧ at_index (store c.cmd_buffer n bs) j = '<')
    (hgt : ∀ t, 1 ≤ t → t < n + bs.length → at_index (store c.cmd_buffer n bs) t ≠ '>') :
    receive_command MAXLEN c (ReadOutcome.data bs :: rest)
        = ⟨-1, none, ⟨store c.cmd_buffer n bs, (n : Int) + bs.length, false⟩, rest, 1⟩
    ∧ (∀ t, t < n → at_index (store c.cmd_buffer n bs) t = at_index c.cmd_buffer t)
    ∧ (∀ t, t < bs.length → at_index (store c.cmd_buffer n bs) (n + t) = at_index bs t) := by
  obtain ⟨_, st2, st3⟩ := store_spec bs c.cmd_buffer n (by omega)
  refine ⟨?_, st3, st2⟩
  obtain ⟨buf, idx, flag⟩ := c
  simp only at hidx hflag hlen hlt hgt
  subst hflag
  subst hidx
  have hread := read_fits bs rest ((MAXLEN : Int) - (n : Int)).toNat (by omega)
  generalize hb : store buf n bs = buf1 at hlt hgt
  have s1 : find_from buf1 '<' 0 ((n : Int) + bs.length) ≠ -1 := by
    intro h
    obtain ⟨j, hj1, hj2⟩ := hlt
    unfold find_from at h
    exact find_loop_eq_neg_one buf1 '<' _ 0 h j (Nat.zero_le j) (by omega) hj2
  have s2 : find_from buf1 '>' 1 ((n : Int) + bs.length) = -1 := by
    apply find_from_none
    intro t h1 h2
    exact hgt t h1 (by omega)
  unfold receive_command
  simp only [if_true, hread, Int.toNat_ofNat, hb, if_neg s1, s2]

theorem find_loop_some (buf : List Char) (ch : Char) : ∀ (n i : Nat),
    find_loop buf ch i n ≠ -1 →
    ∃ j : Nat, find_loop buf ch i n = (j : Int) ∧ i ≤ j ∧ j < i + n ∧ at_index buf j = ch := by
  intro n
  induction n with
  | zero => intro i h; exact absurd rfl h
  | succ n ih =>
    intro i h
    simp only [find_loop] at h ⊢
    by_cases hc : at_index buf i = ch
    · rw [if_pos hc]
      exact ⟨i, rfl, Nat.le_refl i, by omega, hc⟩
    · rw [if_neg hc] at h ⊢
      obtain ⟨j, e, h1, h2, h3⟩ := ih (i + 1) h
      exact ⟨j, e, by omega, by omega, h3⟩

theorem copy_loop_head_last (buf : List Char) : ∀ (m i : Nat),
    (copy_loop buf i (m + 1)).head? = some (at_index buf i)
    ∧ (copy_loop buf i (m + 1)).getLast? = some (at_index buf (i + m)) := by
  intro m
  induction m with
  | zero => intro i; simp [copy_loop]
  | succ m ih =>
    intro i
    obtain ⟨_, h2⟩ := ih (i + 1)
    refine ⟨by simp [copy_loop], ?_⟩
    rw [copy_loop, List.getLast?_cons, h2, Option.getD_some]
    congr 2
    omega

/-- What `receive_command` hands out with return value 0: either an empty
text (the `>` found lies in front of the `<`), or a text that starts with `<`
and ends with `>`. -/
theorem receive_command_text (MAXLEN : Nat) (c : Conn) (sock : Socket)
    (h : (receive_command MAXLEN c sock).ret = 0) :
    ∃ text, (receive_command MAXLEN c sock).buffer = some text
      ∧ (text = [] ∨ (text.head? = some '<' ∧ text.getLast? = some '>')) := by
  unfold receive_command at h ⊢
  generalize (if c.more_elements = false then
      (store c.cmd_buffer c.cmd_index.toNat (read sock (MAXLEN - c.cmd_index).toNat).2.1,
        c.cmd_index + (read sock (MAXLEN - c.cmd_index).toNat).1,
        (read sock (MAXLEN - c.cmd_index).toNat).2.2, 1)
    else (c.cmd_buffer, c.cmd_index, sock, 0)) = r at h ⊢
  obtain ⟨buf, idx, sk, rd⟩ := r
  simp only at h ⊢
  by_cases h1 : find_from buf '<' 0 idx = -1
  · simp [h1] at h
  by_cases h2 : find_from buf '>' 1 idx = -1
  · simp [h1, h2] at h
  have key : copy_span buf (find_from buf '<' 0 idx) (find_from buf '>' 1 idx) = []
      ∨ ((copy_span buf (find_from buf '<' 0 idx) (find_from buf '>' 1 idx)).head? = some '<'
        ∧ (copy_span buf (find_from buf '<' 0 idx) (find_from buf '>' 1 idx)).getLast?
            = some '>') := by
    obtain ⟨j1, e1, _, _, a1⟩ := find_loop_some buf '<' _ 0 h1
    obtain ⟨j2, e2, _, _, a2⟩ := find_loop_some buf '>' _ 1 h2
    unfold find_from at *
    rw [e1, e2]
    unfold copy_span
    by_cases hle : j1 ≤ j2
    · right
      have e : ((j2 : Int) + 1 - (j1 : Int)).toNat = (j2 - j1) + 1 := by omega
      rw [e, Int.toNat_ofNat]
      obtain ⟨c1, c2⟩ := copy_loop_head_last buf (j2 - j1) j1
      rw [c1, c2, a1, show j1 + (j2 - j1) = j2 by omega, a2]
      exact ⟨rfl, rfl⟩
    · left
      have e : ((j2 : Int) + 1 - (j1 : Int)).toNat = 0 := by omega
      rw [e]
      rfl
  simp only [if_neg h1, if_neg h2]
  split
  · exact ⟨_, rfl, key⟩
  · split
    · exact ⟨_, rfl, key⟩
    · exact ⟨_, rfl, key⟩

/-- A `read` with no room left: it returns 0 and stores nothing, unless the
socket reports an error. -/
theorem read_zero (sock : Socket) (h : ReadOutcome.error ∉ sock) :
    (read sock 0).1 = 0 ∧ (read sock 0).2.1 = []
    ∧ ReadOutcome.error ∉ (read sock 0).2.2
    ∧ (∀ bs rest, bs ≠ [] → sock = ReadOutcome.data bs :: rest → (read sock 0).2.2 = sock) := by
  cases sock with
  | nil => simp [read]
  | cons o rest =>
    cases o with
    | error => exact absurd (List.mem_cons_self _ _) h
    | data bs =>
      have hrest : ReadOutcome.error ∉ rest := fun hm => h (List.mem_cons_of_mem _ hm)
      cases bs with
      | nil =>
        refine ⟨by simp [read], by simp [read], by simpa [read] using hrest, ?_⟩
        intro bs rest2 hne heq
        simp only [List.cons.injEq, ReadOutcome.data.injEq] at heq
        exact absurd heq.1.symm hne
      | cons b bs =>
        refine ⟨by simp [read], by simp [read], by simpa [read] using h, ?_⟩
        intro _ _ _ _
        simp [read]

/-- With the buffer full, `<` in front and no `>` in it, a call of
`receive_command` whose `read` does not fail returns -1 and changes none of
the globals. -/
theorem receive_command_full (MAXLEN : Nat) (c : Conn) (sock : Socket) (hpos : 0 < MAXLEN)
    (hlen : c.cmd_buffer.length = MAXLEN) (hidx : c.cmd_index = (MAXLEN : Int))
    (hflag : c.more_elements = false) (hhead : at_index c.cmd_buffer 0 = '<')
    (hno : '>' ∉ c.cmd_buffer) (hsock : ReadOutcome.error ∉ sock) :
    receive_command MAXLEN c sock = ⟨-1, none, c, (read sock 0).2.2, 1⟩ := by
  obtain ⟨r1, r2, _, _⟩ := read_zero sock hsock
  obtain ⟨buf, idx, flag⟩ := c
  simp only at hlen hidx hflag hhead hno
  subst hflag
  have s1 : find_from buf '<' 0 idx = 0 := by
    rw [hidx]
    exact find_from_found buf '<' 0 0 MAXLEN (Nat.le_refl 0) hpos hhead
      (fun t h1 h2 => by omega)
  have s2 : find_from buf '>' 1 idx = -1 := by
    apply find_from_none
    intro t _ ht hh
    exact hno (hh ▸ at_index_mem buf t (by omega))
  unfold receive_command
  have e0 : ((MAXLEN : Int) - idx).toNat = 0 := by omega
  simp only [if_true, e0, r1, r2, store, add_zero, s1, s2]
  simp

/-- C8. `asc2nibble` returns the hexadecimal value (0..15) of the digits `0-9`,
`A-F`, `a-f`, upper and lower case alike, and 16 for every other character;
its result is below 16 exactly for the hexadecimal digits. -/
theorem asc2nibble_decodes (c : Char) :
    asc2nibble c = (match hex_value c with | some v => (v : Int) | none => 16)
    ∧ (hex_value c).getD 0 ≤ 15
    ∧ ((hex_value c).isSome = true ↔ is_hex_digit c)
    ∧ (asc2nibble c < 16 ↔ is_hex_digit c)
    ∧ 0 ≤ asc2nibble c
    ∧ "ABCDEF".toList.map asc2nibble = "abcdef".toList.map asc2nibble
    ∧ asc2nibble '9' = 9 ∧ asc2nibble 'f' = 15 ∧ asc2nibble 'g' = 16 := by
  have h1 := asc2nibble_eq_hex_value c
  have h2 := hex_value_le c
  have h3 := hex_value_isSome_iff c
  refine ⟨h1, h2, h3, ?_, ?_, by decide, by decide, by decide, by decide⟩
  · rw [← h3, h1]
    cases hv : hex_value c with
    | none => simp
    | some v =>
      rw [hv] at h2
      simp only [Option.getD_some] at h2
      simp only [Option.isSome_some, iff_true]
      omega
  · rw [h1]
    cases hv : hex_value c with
    | none => simp
    | some v => simp

/-- C9. For 32-bit words `a` (interface address) and `m` (netmask), the
broadcast address computed by `determine_adress` is `a OR (NOT m)` over 32
bits: it agrees with `a` where `m` has a 1 bit and is 1 where `m` has a 0 bit;
192.168.1.10 with 255.255.255.0 gives 192.168.1.255. -/
theorem determine_adress_broadcast_spec (a m : Nat) (ha : a < 2 ^ 32) (hm : m < 2 ^ 32) :
    determine_adress_broadcast a m = a ||| (2 ^ 32 - 1 - m)
    ∧ determine_adress_broadcast a m < 2 ^ 32
    ∧ (∀ i, i < 32 → (determine_adress_broadcast a m).testBit i
          = (if m.testBit i then a.testBit i else true))
    ∧ determine_adress_broadcast (ipv4 192 168 1 10) (ipv4 255 255 255 0)
        = ipv4 192 168 1 255 := by
  have h := determine_adress_broadcast_eq a m ha hm
  refine ⟨?_, ?_, ?_, by decide⟩
  · rw [h]
    congr 1
    omega
  · rw [h]
    exact Nat.or_lt_two_pow ha (by omega)
  · intro i hi
    rw [h, Nat.testBit_or, Nat.testBit_two_pow_sub_succ hm]
    cases hmb : m.testBit i <;> simp [hi]

/-- Witness for C9 at 10.0.0.7 with netmask 255.0.0.0. -/
theorem determine_adress_broadcast_spec_witness :
    determine_adress_broadcast (ipv4 10 0 0 7) (ipv4 255 0 0 0) = ipv4 10 255 255 255 :=
  ((determine_adress_broadcast_spec (ipv4 10 0 0 7) (ipv4 255 0 0 0)
      (by decide) (by decide)).1).trans (by decide)

/-- C4. Called with `current_state` equal to the global `state = s`,
`state_changed` leaves the state Raw, Bcm, Isotp or Control when the frame text
is exactly `< rawmode >`, `< bcmmode >`, `< isotpmode >`, `< controlmode >`
(case-sensitive, one space each side) and leaves it `s` for every other text;
it returns nonzero exactly when the new state differs from `s`.  From NoBus
the frames `< rawmode >`, `< rawmode >`, `< bcmmode >` give Raw, Raw, Bcm with
a change reported for the first and third only. -/
theorem state_changed_transition (s : SessionState) (buf : List Char) :
    (state_changed buf s s).2
        = (if c_text buf = "< rawmode >".toList then STATE_RAW
           else if c_text buf = "< bcmmode >".toList then STATE_BCM
           else if c_text buf = "< isotpmode >".toList then STATE_ISOTP
           else if c_text buf = "< controlmode >".toList then STATE_CONTROL
           else s)
    ∧ ((state_changed buf s s).1 ≠ 0 ↔ (state_changed buf s s).2 ≠ s)
    ∧ feed_frames STATE_NO_BUS
          ["< rawmode >".toList, "< rawmode >".toList, "< bcmmode >".toList]
        = [(1, STATE_RAW), (0, STATE_RAW), (1, STATE_BCM)]
    ∧ (state_changed "< RAWMODE >".toList s s).2 = s
    ∧ (state_changed "<rawmode>".toList s s).2 = s
    ∧ (state_changed "<  rawmode >".toList s s).2 = s := by
  refine ⟨?_, ?_, by decide, ?_, ?_, ?_⟩
  · simp only [state_changed]
    rw [strcmp_eq_literal _ buf (by decide), strcmp_eq_literal _ buf (by decide),
      strcmp_eq_literal _ buf (by decide), strcmp_eq_literal _ buf (by decide)]
    simp only [decide_eq_true_eq]
  · simp only [state_changed]
    generalize (if strcmp_eq "< rawmode >".toList buf then STATE_RAW
      else if strcmp_eq "< bcmmode >".toList buf then STATE_BCM
      else if strcmp_eq "< isotpmode >".toList buf then STATE_ISOTP
      else if strcmp_eq "< controlmode >".toList buf then STATE_CONTROL
      else s) = t
    by_cases h : s = t
    · simp [h]
    · have h2 : ¬ t = s := fun e => h e.symm
      simp [h, h2]
  · cases s <;> decide
  · cases s <;> decide
  · cases s <;> decide

/-- C6. In a frame `<`, spaces, `e1`, spaces, ..., `en`, spaces, `>` (each
`ei` non-empty and free of spaces, any number >= 1 of spaces between them) and
for every index `1 <= i <= n`, `element_start(frame, i)` points at the first
character of `ei` and `element_length(frame, i)` is the length of `ei`; in
`< set 0 on >` index 1 is `set` (length 3) and index 3 is `on` (length 2). -/
theorem element_retrieval (es : List (Nat × List Char)) (kLast : Nat) (i : Nat)
    (hwf : well_formed_elements es) (hk : 1 ≤ kLast) (h1 : 1 ≤ i) (h2 : i ≤ es.length) :
    element_start (mk_frame es kLast) i
        = some (1 + (frame_body (es.take (i - 1))).length + (es.getD (i - 1) (0, [])).1)
    ∧ element_length (mk_frame es kLast) i = (es.getD (i - 1) (0, [])).2.length
    ∧ element_at (mk_frame es kLast) i = some (es.getD (i - 1) (0, [])).2
    ∧ element_at "< set 0 on >".toList 1 = some "set".toList
    ∧ element_length "< set 0 on >".toList 1 = 3
    ∧ element_at "< set 0 on >".toList 3 = some "on".toList
    ∧ element_length "< set 0 on >".toList 3 = 2 := by
  refine ⟨?_, ?_, ?_, by decide, by decide, by decide, by decide⟩
  all_goals
    have hsplit := well_formed_split es i h1 h2
    generalize es.getD (i - 1) (0, []) = p at hsplit ⊢
    obtain ⟨k, e⟩ := p
    have hwf2 : well_formed_elements (es.take (i - 1) ++ (k, e) :: es.drop i) := by
      rw [← hsplit]; exact hwf
    have hmain := element_start_length_split (es.take (i - 1)) k e (es.drop i) kLast hwf2 hk
    rw [← hsplit] at hmain
    have hi : ((es.take (i - 1)).length : Int) + 1 = (i : Int) := by
      rw [List.length_take]
      omega
    rw [hi] at hmain
    obtain ⟨m1, m2, m3⟩ := hmain
  · exact m1
  · exact m2
  · unfold element_at
    rw [m1, m2]
    simp only [Option.map_some', Int.toNat_ofNat, m3]
    simp

/-- Witness for C6: the third element of `< set  0 on >`. -/
theorem element_retrieval_witness :
    element_at (mk_frame [(1, "set".toList), (2, "0".toList), (1, "on".toList)] 1) (3 : Nat)
      = some "on".toList :=
  (element_retrieval [(1, "set".toList), (2, "0".toList), (1, "on".toList)] 1 3
    (by simp [well_formed_elements]) (by decide) (by decide) (by decide)).2.2.1

/-- C7 (as amended). In a frame `< e1 e2 ... en >` the index `n + 1` is not
absent: it is the closing `>` (`element_start` points at it, `element_length`
is 1).  For every index `k > n + 1`, `element_start(frame, k)` is `NULL` and
`element_length(frame, k)` is 0; in `< set 0 on >` index 4 is `>` and index 5
is absent. -/
theorem element_past_last (es : List (Nat × List Char)) (kLast : Nat) (k : Int)
    (hwf : well_formed_elements es) (hk : 1 ≤ kLast) (h : (es.length : Int) + 1 < k) :
    element_start (mk_frame es kLast) k = none
    ∧ element_length (mk_frame es kLast) k = 0
    ∧ element_start (mk_frame es kLast) (es.length + 1)
        = some ((mk_frame es kLast).length - 1)
    ∧ element_at (mk_frame es kLast) (es.length + 1) = some ['>']
    ∧ element_length (mk_frame es kLast) (es.length + 1) = 1
    ∧ element_start "< set 0 on >".toList 5 = none
    ∧ element_length "< set 0 on >".toList 5 = 0 := by
  have hp := element_start_length_past es kLast hwf hk k (by omega)
  have hq := element_start_length_past es kLast hwf hk (es.length + 1) (by omega)
  rw [if_neg (by omega), if_neg (by omega)] at hp
  rw [if_pos rfl, if_pos rfl] at hq
  have hl : 1 + (frame_body es).length + kLast = (mk_frame es kLast).length - 1 := by
    rw [mk_frame_length]; omega
  refine ⟨hp.1, hp.2, by rw [hq.1, hl], ?_, hq.2, by decide, by decide⟩
  unfold element_at
  rw [hq.1, hq.2]
  have hdrop : (mk_frame es kLast).drop (1 + (frame_body es).length + kLast) = ['>'] := by
    have : mk_frame es kLast
        = (['<'] ++ frame_body es ++ List.replicate kLast ' ') ++ ['>'] := by
      simp [mk_frame]
    rw [this]
    apply List.drop_left'
    simp
    omega
  simp [hdrop]

/-- Witness for C7 (as amended): index 6 of `< set 0 on >`. -/
theorem element_past_last_witness :
    element_start (mk_frame [(1, "set".toList), (1, "0".toList), (1, "on".toList)] 1) 6 = none :=
  (element_past_last [(1, "set".toList), (1, "0".toList), (1, "on".toList)] 1 6
    (by simp [well_formed_elements]) (by decide) (by decide)).1

/-- C7 as stated fails: `< set 0 on >` has three elements, yet index 4 is not
absent; `element_start` returns the address of the closing `>` (offset 11)
and `element_length` returns 1. -/
theorem element_past_last_counterexample :
    mk_frame [(1, "set".toList), (1, "0".toList), (1, "on".toList)] 1 = "< set 0 on >".toList
    ∧ element_start "< set 0 on >".toList 4 = some 11
    ∧ element_length "< set 0 on >".toList 4 = 1
    ∧ ¬ (element_start "< set 0 on >".toList 4 = none
          ∧ element_length "< set 0 on >".toList 4 = 0) := by
  decide

/-- C3. Two frames `<` body `>` (bodies without `<` and `>`) that arrive in
one read into an empty buffer and fit into `MAXLEN` bytes: the call that reads
them returns the first and sets `more_elements`; the next call makes no
`read`, returns the second and leaves the buffer empty (`cmd_index = 0`);
`<a><b>` yields `<a>` then `<b>`. -/
theorem two_frames_one_read (MAXLEN : Nat) (b1 b2 cells : List Char) (rest : Socket)
    (h1 : '<' ∉ b1 ∧ '>' ∉ b1) (h2 : '<' ∉ b2 ∧ '>' ∉ b2)
    (hlen : ('<' :: (b1 ++ ['>']) ++ '<' :: (b2 ++ ['>'])).length ≤ MAXLEN)
    (hcells : cells.length = MAXLEN) :
    (receive_command MAXLEN ⟨cells, 0, false⟩
        (ReadOutcome.data ('<' :: (b1 ++ ['>']) ++ '<' :: (b2 ++ ['>'])) :: rest)).ret = 0
    ∧ (receive_command MAXLEN ⟨cells, 0, false⟩
        (ReadOutcome.data ('<' :: (b1 ++ ['>']) ++ '<' :: (b2 ++ ['>'])) :: rest)).buffer
        = some ('<' :: (b1 ++ ['>']))
    ∧ (receive_command MAXLEN ⟨cells, 0, false⟩
        (ReadOutcome.data ('<' :: (b1 ++ ['>']) ++ '<' :: (b2 ++ ['>'])) :: rest)).conn.more_elements
        = true
    ∧ (receive_command MAXLEN ⟨cells, 0, false⟩
        (ReadOutcome.data ('<' :: (b1 ++ ['>']) ++ '<' :: (b2 ++ ['>'])) :: rest)).sock = rest
    ∧ receive_command MAXLEN
        (receive_command MAXLEN ⟨cells, 0, false⟩
          (ReadOutcome.data ('<' :: (b1 ++ ['>']) ++ '<' :: (b2 ++ ['>'])) :: rest)).conn rest
        = ⟨0, some ('<' :: (b2 ++ ['>'])),
            ⟨(receive_command MAXLEN ⟨cells, 0, false⟩
              (ReadOutcome.data ('<' :: (b1 ++ ['>']) ++ '<' :: (b2 ++ ['>'])) :: rest)).conn.cmd_buffer,
             0, false⟩, rest, 0⟩
    ∧ (drive 16 2 (empty_conn 16) (chunks ["<a><b>".toList])).1
        = ["<a>".toList, "<b>".toList] := by
  have hl : b1.length + b2.length + 4 ≤ MAXLEN := by
    simp only [List.length_append, List.length_cons, List.length_singleton,
      List.length_nil] at hlen
    omega
  obtain ⟨buf2, hs2, hr1⟩ := receive_command_two_frames MAXLEN b1 b2 cells rest h1.2 h2.2 hl hcells
  rw [hr1]
  refine ⟨rfl, rfl, rfl, rfl, ?_, by decide⟩
  exact receive_command_flagged_single MAXLEN buf2 b2 _ rest h2.2 hs2 rfl

/-- Witness for C3: `<a><b>` read into an empty 16-byte buffer. -/
theorem two_frames_one_read_witness :
    (receive_command 16 ⟨List.replicate 16 '\x00', 0, false⟩
        [ReadOutcome.data "<a><b>".toList]).buffer = some "<a>".toList :=
  (two_frames_one_read 16 ['a'] ['b'] (List.replicate 16 '\x00') []
    (by decide) (by decide) (by decide) (by decide)).2.1

/-- C1 fails on the code: from an empty buffer the read `x><` makes
`receive_command` return 0 with an empty text in the caller's buffer; the
search for `>` starts at cell 1 instead of behind the `<` found at cell 2. -/
theorem receive_command_empty_frame :
    (receive_command 16 (empty_conn 16) [ReadOutcome.data "x><".toList]).ret = 0
    ∧ (receive_command 16 (empty_conn 16) [ReadOutcome.data "x><".toList]).buffer = some []
    ∧ find_from ("x><".toList ++ List.replicate 13 '\x00') '<' 0 3 = 2
    ∧ find_from ("x><".toList ++ List.replicate 13 '\x00') '>' 1 3 = 1 := by
  decide

/-- C2 fails on the code: the stream `x><b>` yields the frames `""`, `<b>`
when it arrives in one read and the single frame `<b>` when it arrives as
`x>` followed by `<b>`; both runs end with the socket drained and no frame
flagged. -/
theorem chunking_changes_frames :
    drive 16 8 (empty_conn 16) (chunks ["x><b>".toList])
      = ([[], "<b>".toList], ⟨"<b>".toList ++ 'b' :: '>' :: List.replicate 11 '\x00', 0, false⟩, [])
    ∧ drive 16 8 (empty_conn 16) (chunks ["x>".toList, "<b>".toList])
      = (["<b>".toList], ⟨"<b>".toList ++ List.replicate 13 '\x00', 0, false⟩, [])
    ∧ ["x><b>".toList].flatten = ["x>".toList, "<b>".toList].flatten
    ∧ (drive 16 8 (empty_conn 16) (chunks ["x><b>".toList])).1
      ≠ (drive 16 8 (empty_conn 16) (chunks ["x>".toList, "<b>".toList])).1 := by
  decide

/-- C10 fails on the code: with `<a` buffered (`cmd_index = 2`) a `read` that
fails with -1 is added to `cmd_index` unchecked, so the call returns -1 with
`cmd_index = 1` and the byte `a` is dropped.  Apart from that, the read `x><a`
into an empty buffer holds a `<` with no `>` behind it, yet the call returns
0 with an empty text (the defect of C1). -/
theorem failed_read_drops_byte :
    receive_command 16 ⟨"<a".toList ++ List.replicate 14 '\x00', 2, false⟩ [ReadOutcome.error]
      = ⟨-1, none, ⟨"<a".toList ++ List.replicate 14 '\x00', 1, false⟩, [], 1⟩
    ∧ (receive_command 16 (empty_conn 16) [ReadOutcome.data "x><a".toList]).ret = 0
    ∧ (receive_command 16 (empty_conn 16) [ReadOutcome.data "x><a".toList]).buffer = some []
    ∧ (receive_command 16 (empty_conn 16) [ReadOutcome.data "x><a".toList]).conn.cmd_index = 2 := by
  decide

end Socketcand
